import Mathlib

/-!
Verification of the `tf-asset-loader` repository (Rust) against its
natural-language specification.

The definitions below are a shallow embedding of `src/lib.rs` and
`src/source.rs`:
* `clean_path` embeds the Rust `clean_path` helper (the `path.contains("/../")`
  check, the synthetic-root `path_dedot::parse_dot_from("/")` resolution on
  `PathBuf`, and `trim_start_matches('/')`), modelled at the level of
  character lists on a Unix-style path syntax;
* `AssetSource`, `scanHas`, `scanLoad`, `Loader.exists`, `Loader.load` and
  `Loader.find_in_paths` embed the loader facade;
* `dirSource` and `vpkSource` embed the `AssetSource` impls for `PathBuf`
  and `VPK`;
* `Env`, `tf2_path`, `Fs`, `with_tf2_dir` and `Loader.new` embed the
  install-path discovery and loader construction over an explicit
  environment/filesystem model.
-/

set_option autoImplicit false

deriving instance DecidableEq for Except

/-- Bytes of a loaded asset (Rust `Vec<u8>`), modelled as a list of naturals. -/
abbrev Bytes := List Nat

/-- Embeds the Rust `LoaderError` enum from `src/lib.rs`.  Error payloads
(`std::io::Error`, `zip::result::ZipError`) are modelled as strings since
only their identity matters to the loader logic. -/
inductive LoaderError where
  | Tf2NotFound : LoaderError
  | Io : String → LoaderError
  | Zip : String → LoaderError
  | Other : String → LoaderError
deriving DecidableEq

/-- Scanner for the Rust `path.contains("/../")` test: does the character
list start with the four characters of the literal pattern. -/
def startsWithPat : List Char → Bool
  | a :: b :: c :: d :: _ => a = '/' && b = '.' && c = '.' && d = '/'
  | _ => false

/-- Scanner for the Rust `path.contains("/../")` test: does the pattern
occur at any position of the character list. -/
def hasPat : List Char → Bool
  | [] => false
  | a :: rest => startsWithPat (a :: rest) || hasPat rest

/-- Embeds `str::contains("/../")` from the Rust `clean_path`. -/
def containsParentPat (s : String) : Bool := hasPat s.data

/-- Splits a character list at every `/` (the pieces do not contain `/`;
consecutive separators yield empty pieces).  Models the component structure
of a Unix `Path`. -/
def splitSlash : List Char → List (List Char)
  | [] => [[]]
  | c :: rest =>
    match splitSlash rest with
    | [] => [[]]
    | h :: t => if c = '/' then [] :: h :: t else (c :: h) :: t

/-- The normal components of a Unix path: `Path::components` drops empty
pieces (repeated or trailing separators) and `.` pieces on an absolute
path. -/
def componentsOf (l : List Char) : List (List Char) :=
  (splitSlash l).filter (fun c => decide (c ≠ [] ∧ c ≠ ['.']))

/-- Embeds `path_dedot` resolution of the normal components of an absolute
path: a `..` component pops the previous component, and is dropped when
there is nothing left to pop (it cannot climb above the root).  `acc` holds
the already-resolved components in reverse order. -/
def dedot : List (List Char) → List (List Char) → List (List Char)
  | acc, [] => acc.reverse
  | acc, c :: rest =>
    if c = ['.', '.'] then dedot acc.tail rest else dedot (c :: acc) rest

/-- Joins components with `/` separators (no leading or trailing
separator). -/
def joinSlash : List (List Char) → List Char
  | [] => []
  | [c] => c
  | c :: c2 :: rest => c ++ '/' :: joinSlash (c2 :: rest)

/-- Embeds `PathBuf::parse_dot_from("/")` applied to the absolute path
`/{path}` built by the Rust `clean_path`, followed by rendering the result
back to a string: root marker plus the dedotted components.  The Rust call
returns a `Result`; on an absolute path it cannot fail, so the model always
returns `some` (the `none` branch of `clean_path` below mirrors the Rust
`let Ok(..) = .. else` fallback). -/
def parse_dot_abs (l : List Char) : Option (List Char) :=
  some ('/' :: joinSlash (dedot [] (componentsOf l)))

/-- Embeds `str::trim_start_matches('/')`: removes every leading `/`. -/
def trimLeadingSlashes : List Char → List Char
  | [] => []
  | c :: rest => if c = '/' then trimLeadingSlashes rest else c :: rest

/-- Embeds the Rust `clean_path` from `src/lib.rs`: if the path contains
the literal substring `/../`, prepend a synthetic root separator, resolve
the dot segments against that root, and strip the leading separators back
off; if the resolution step fails, return the path unchanged; if the
pattern is absent, return the path unchanged. -/
def clean_path (path : String) : String :=
  if containsParentPat path then
    match parse_dot_abs ('/' :: path.data) with
    | some absolute_path => String.mk (trimLeadingSlashes absolute_path)
    | none => path
  else path

/-- Embeds `u8::to_ascii_lowercase` on one character: only ASCII `A`–`Z`
is mapped. -/
def lowerChar (c : Char) : Char :=
  if 'A' ≤ c ∧ c ≤ 'Z' then Char.ofNat (c.toNat + 32) else c

/-- Embeds `str::to_ascii_lowercase`. -/
def toAsciiLower (s : String) : String := String.mk (s.data.map lowerChar)

/-! ### Structural facts about the path-cleaning pipeline -/

/-- A resolved path component: nonempty, free of separators, not a dot
segment and not a parent segment. -/
def goodComp (c : List Char) : Prop :=
  c ≠ [] ∧ '/' ∉ c ∧ c ≠ ['.'] ∧ c ≠ ['.', '.']

theorem splitSlash_ne_nil (l : List Char) : splitSlash l ≠ [] := by
  cases l with
  | nil => simp [splitSlash]
  | cons c rest =>
    rw [splitSlash]
    cases splitSlash rest with
    | nil => simp
    | cons h t => by_cases hc : c = '/' <;> simp [hc]

theorem splitSlash_cons_eq (c : Char) (rest : List Char) (h : List Char)
    (t : List (List Char)) (hsp : splitSlash rest = h :: t) :
    splitSlash (c :: rest) = if c = '/' then [] :: h :: t else (c :: h) :: t := by
  rw [splitSlash, hsp]

theorem no_slash_of_mem_splitSlash :
    ∀ (l : List Char), ∀ c ∈ splitSlash l, '/' ∉ c := by
  intro l
  induction l with
  | nil =>
    intro c hc
    simp [splitSlash] at hc
    simp [hc]
  | cons x rest ih =>
    intro c hc
    obtain ⟨h, t, hsp⟩ := List.exists_cons_of_ne_nil (splitSlash_ne_nil rest)
    rw [splitSlash_cons_eq x rest h t hsp] at hc
    by_cases hx : x = '/'
    · rw [if_pos hx] at hc
      rcases List.mem_cons.mp hc with hce | hct
      · simp [hce]
      · exact ih c (hsp ▸ hct)
    · rw [if_neg hx] at hc
      rcases List.mem_cons.mp hc with hce | hct
      · subst hce
        intro hmem
        rcases List.mem_cons.mp hmem with hxe | hhe
        · exact hx hxe.symm
        · exact ih h (hsp ▸ List.mem_cons_self h t) hhe
      · exact ih c (hsp ▸ List.mem_cons_of_mem h hct)

theorem mem_componentsOf {l : List Char} {c : List Char}
    (hc : c ∈ componentsOf l) : c ≠ [] ∧ '/' ∉ c ∧ c ≠ ['.'] := by
  unfold componentsOf at hc
  have h1 := List.mem_filter.mp hc
  have h2 := of_decide_eq_true h1.2
  exact ⟨h2.1, no_slash_of_mem_splitSlash l c h1.1, h2.2⟩

theorem dedot_good :
    ∀ (rest acc : List (List Char)),
      (∀ c ∈ acc, goodComp c) →
      (∀ c ∈ rest, c ≠ [] ∧ '/' ∉ c ∧ c ≠ ['.']) →
      ∀ c ∈ dedot acc rest, goodComp c := by
  intro rest
  induction rest with
  | nil =>
    intro acc hacc _ c hc
    simp only [dedot] at hc
    exact hacc c (List.mem_reverse.mp hc)
  | cons x rs ih =>
    intro acc hacc hrest c hc
    simp only [dedot] at hc
    by_cases hx : x = ['.', '.']
    · rw [if_pos hx] at hc
      exact ih acc.tail (fun d hd => hacc d (List.mem_of_mem_tail hd))
        (fun d hd => hrest d (List.mem_cons_of_mem x hd)) c hc
    · rw [if_neg hx] at hc
      refine ih (x :: acc) ?_ (fun d hd => hrest d (List.mem_cons_of_mem x hd)) c hc
      intro d hd
      rcases List.mem_cons.mp hd with hde | hda
      · subst hde
        have hq := hrest d (List.mem_cons_self d rs)
        exact ⟨hq.1, hq.2.1, hq.2.2, hx⟩
      · exact hacc d hda

theorem dedot_componentsOf_good (l : List Char) :
    ∀ c ∈ dedot [] (componentsOf l), goodComp c :=
  dedot_good (componentsOf l) [] (by simp) (fun _ hc => mem_componentsOf hc)

theorem startsWithPat_iff (l : List Char) :
    startsWithPat l = true ↔ ∃ t, l = '/' :: '.' :: '.' :: '/' :: t := by
  match l with
  | [] => simp [startsWithPat]
  | [a] => simp [startsWithPat]
  | [a, b] => simp [startsWithPat]
  | [a, b, c] => simp [startsWithPat]
  | a :: b :: c :: d :: t =>
    simp only [startsWithPat, Bool.and_eq_true, decide_eq_true_eq]
    constructor
    · rintro ⟨⟨⟨ha, hb⟩, hc⟩, hd⟩
      subst ha; subst hb; subst hc; subst hd
      exact ⟨t, rfl⟩
    · rintro ⟨t2, ht⟩
      injection ht with h1 ht
      injection ht with h2 ht
      injection ht with h3 ht
      injection ht with h4 _
      exact ⟨⟨⟨h1, h2⟩, h3⟩, h4⟩

theorem startsWithPat_cons_of_ne {a : Char} (l : List Char) (ha : a ≠ '/') :
    startsWithPat (a :: l) = false := by
  by_contra hne
  rw [Bool.not_eq_false] at hne
  obtain ⟨t, ht⟩ := (startsWithPat_iff _).mp hne
  injection ht with h1 _
  exact ha h1

theorem hasPat_append_of_no_slash (c s : List Char) (hc : '/' ∉ c) :
    hasPat (c ++ s) = hasPat s := by
  induction c with
  | nil => rfl
  | cons a c2 ih =>
    have ha : a ≠ '/' := fun hae => hc (by rw [← hae] at *; exact List.mem_cons_self a c2)
    simp only [List.cons_append, hasPat]
    rw [startsWithPat_cons_of_ne _ ha, Bool.false_or]
    exact ih (fun hmem => hc (List.mem_cons_of_mem a hmem))

theorem startsWithPat_slash_append (c s : List Char) (hc : goodComp c) :
    startsWithPat ('/' :: (c ++ s)) = false := by
  by_contra hne
  rw [Bool.not_eq_false] at hne
  obtain ⟨t, ht⟩ := (startsWithPat_iff _).mp hne
  injection ht with _ ht2
  obtain ⟨hemp, hsl, hdot, hdd⟩ := hc
  match c, ht2 with
  | [], _ => exact hemp rfl
  | [a], ht2 => injection ht2 with h1 _; exact hdot (by rw [h1])
  | [a, b], ht2 =>
    injection ht2 with h1 ht2
    injection ht2 with h2 _
    exact hdd (by rw [h1, h2])
  | a :: b :: e :: r, ht2 =>
    injection ht2 with h1 ht2
    injection ht2 with h2 ht2
    injection ht2 with h3 _
    exact hsl (by rw [h3]; simp)

theorem joinSlash_cons (c : List Char) (rest : List (List Char)) :
    joinSlash (c :: rest) =
      c ++ (match rest with | [] => [] | _ :: _ => '/' :: joinSlash rest) := by
  cases rest with
  | nil => simp [joinSlash]
  | cons c2 r => rfl

theorem hasPat_joinSlash :
    ∀ (comps : List (List Char)), (∀ c ∈ comps, goodComp c) →
      hasPat (joinSlash comps) = false
  | [], _ => rfl
  | [c], h => by
    have hc := h c (List.mem_cons_self c [])
    have := hasPat_append_of_no_slash c [] hc.2.1
    simpa using this
  | c :: c2 :: rest, h => by
    have hc := h c (List.mem_cons_self c (c2 :: rest))
    have hc2 := h c2 (List.mem_cons_of_mem c (List.mem_cons_self c2 rest))
    have ih := hasPat_joinSlash (c2 :: rest)
      (fun d hd => h d (List.mem_cons_of_mem c hd))
    show hasPat (c ++ '/' :: joinSlash (c2 :: rest)) = false
    rw [hasPat_append_of_no_slash _ _ hc.2.1]
    show (startsWithPat ('/' :: joinSlash (c2 :: rest)) ||
      hasPat (joinSlash (c2 :: rest))) = false
    rw [ih, Bool.or_false, joinSlash_cons]
    exact startsWithPat_slash_append _ _ hc2

theorem trimLeadingSlashes_slash_joinSlash (comps : List (List Char))
    (h : ∀ c ∈ comps, goodComp c) :
    trimLeadingSlashes ('/' :: joinSlash comps) = joinSlash comps := by
  show (if ('/' : Char) = '/' then trimLeadingSlashes (joinSlash comps)
    else '/' :: joinSlash comps) = joinSlash comps
  rw [if_pos rfl]
  cases comps with
  | nil => rfl
  | cons c rest =>
    have hc := h c (List.mem_cons_self c rest)
    obtain ⟨hemp, hsl, _, _⟩ := hc
    rw [joinSlash_cons]
    cases c with
    | nil => exact absurd rfl hemp
    | cons a c2 =>
      have ha : a ≠ '/' := by
        intro hae
        apply hsl
        rw [← hae]
        exact List.mem_cons_self a c2
      rw [List.cons_append]
      show (if a = '/' then _ else _) = _
      rw [if_neg ha]

theorem splitSlash_slash_cons (l : List Char) :
    splitSlash ('/' :: l) = [] :: splitSlash l := by
  obtain ⟨h, t, hsp⟩ := List.exists_cons_of_ne_nil (splitSlash_ne_nil l)
  rw [splitSlash_cons_eq '/' l h t hsp, if_pos rfl, hsp]

theorem componentsOf_slash_cons (l : List Char) :
    componentsOf ('/' :: l) = componentsOf l := by
  unfold componentsOf
  rw [splitSlash_slash_cons, List.filter_cons]
  simp

theorem clean_path_of_pat (p : String) (h : containsParentPat p = true) :
    clean_path p =
      String.mk (joinSlash (dedot [] (componentsOf p.data))) := by
  rw [clean_path, if_pos h]
  show String.mk (trimLeadingSlashes
    ('/' :: joinSlash (dedot [] (componentsOf ('/' :: p.data))))) = _
  rw [componentsOf_slash_cons,
    trimLeadingSlashes_slash_joinSlash _ (dedot_componentsOf_good p.data)]

theorem clean_path_of_no_pat (p : String) (h : containsParentPat p = false) :
    clean_path p = p := by
  rw [clean_path, if_neg (by simp [h])]

/-- C4: for every path string that does not contain the substring `/../`,
`clean_path` returns the path completely unchanged (the fast path performs
no parsing); in particular `"../bar"` and `"foo/bar"` are returned
unchanged. -/
theorem c4_fast_path_unchanged (p : String)
    (h : containsParentPat p = false) : clean_path p = p :=
  clean_path_of_no_pat p h

/-- Witness for C4 at the two concrete inputs named by the claim. -/
theorem c4_fast_path_unchanged_witness :
    (containsParentPat "../bar" = false ∧ clean_path "../bar" = "../bar") ∧
    (containsParentPat "foo/bar" = false ∧ clean_path "foo/bar" = "foo/bar") :=
  ⟨⟨by decide, c4_fast_path_unchanged "../bar" (by decide)⟩,
   ⟨by decide, c4_fast_path_unchanged "foo/bar" (by decide)⟩⟩

/-- C5: for every path string containing the substring `/../`, `clean_path`
prepends a synthetic root separator, collapses all `.` and `..` segments
against that synthetic root, and strips the leading separator: the result
is exactly the dedotted components of the path joined by `/`.  The parse
step of the model (`parse_dot_abs`) is total on the absolute path built by
`clean_path`, so the `none` fallback branch of `clean_path` (returning the
original path unchanged instead of an error) is never taken. -/
theorem c5_resolve_parent_segments (p : String)
    (h : containsParentPat p = true) :
    clean_path p = String.mk (joinSlash (dedot [] (componentsOf p.data))) :=
  clean_path_of_pat p h

/-- Witness for C5 at the concrete input named by the claim:
`clean_path "foo/asd/../bar" = "foo/bar"`. -/
theorem c5_resolve_parent_segments_witness :
    containsParentPat "foo/asd/../bar" = true ∧
    clean_path "foo/asd/../bar" = "foo/bar" :=
  ⟨by decide,
   (c5_resolve_parent_segments "foo/asd/../bar" (by decide)).trans (by decide)⟩

/-- C10: path cleaning is idempotent; the output of `clean_path` is a fixed
point of `clean_path`. -/
theorem c10_clean_path_idempotent (p : String) :
    clean_path (clean_path p) = clean_path p := by
  cases h : containsParentPat p with
  | false =>
    rw [clean_path_of_no_pat p h]
    exact clean_path_of_no_pat p h
  | true =>
    rw [clean_path_of_pat p h]
    apply clean_path_of_no_pat
    show hasPat (String.mk (joinSlash (dedot [] (componentsOf p.data)))).data
      = false
    exact hasPat_joinSlash _ (dedot_componentsOf_good p.data)

/-! ### The asset-source abstraction and the loader facade -/

/-- Embeds the Rust `AssetSource` trait from `src/source.rs`: a trait
object is a pair of fallible `has`/`load` operations on relative logical
paths. -/
structure AssetSource where
  has : String → Except LoaderError Bool
  load : String → Except LoaderError (Option Bytes)

/-- Embeds the Rust `Loader` struct: an ordered list of shared
asset-source handles. -/
structure Loader where
  sources : List AssetSource

/-- One pass of the `for source in self.sources.iter()` loop inside
`Loader::exists`: stops with `true` at the first source reporting a hit,
propagates the first error, and yields `false` when no source hits. -/
def scanHas (sources : List AssetSource) (name : String) :
    Except LoaderError Bool :=
  match sources with
  | [] => .ok false
  | s :: rest =>
    match s.has name with
    | .error e => .error e
    | .ok true => .ok true
    | .ok false => scanHas rest name

/-- One pass of the `for source in self.sources.iter()` loop inside
`Loader::load`: stops with the first successful byte result, propagates
the first error, and yields `none` when every source misses. -/
def scanLoad (sources : List AssetSource) (name : String) :
    Except LoaderError (Option Bytes) :=
  match sources with
  | [] => .ok none
  | s :: rest =>
    match s.load name with
    | .error e => .error e
    | .ok (some data) => .ok (some data)
    | .ok none => scanLoad rest name

/-- Embeds `Loader::exists` from `src/lib.rs`: clean the path, scan all
sources in order, and on a miss repeat the scan with the ASCII-lowercased
name when it differs from the cleaned name. -/
def Loader.exists (l : Loader) (name : String) : Except LoaderError Bool :=
  let name := clean_path name
  match scanHas l.sources name with
  | .error e => .error e
  | .ok true => .ok true
  | .ok false =>
    let lower_name := toAsciiLower name
    if name ≠ lower_name then scanHas l.sources lower_name
    else .ok false

/-- Embeds `Loader::load` from `src/lib.rs`: same two-pass policy as
`Loader.exists`, returning the first successful byte result. -/
def Loader.load (l : Loader) (name : String) :
    Except LoaderError (Option Bytes) :=
  let name := clean_path name
  match scanLoad l.sources name with
  | .error e => .error e
  | .ok (some data) => .ok (some data)
  | .ok none =>
    let lower_name := toAsciiLower name
    if name ≠ lower_name then scanLoad l.sources lower_name
    else .ok none

/-- Embeds `Loader::add_source`: appends a source at the end of the
priority list. -/
def Loader.add_source (l : Loader) (s : AssetSource) : Loader :=
  { sources := l.sources ++ [s] }

/-- Embeds `Result::unwrap_or_default` on `Result<bool, LoaderError>` as
used by `Loader::find_in_paths`: an error collapses to `false`. -/
def unwrapOrDefault : Except LoaderError Bool → Bool
  | .ok b => b
  | .error _ => false

/-- One pass of the candidate loop inside `Loader::find_in_paths`:
concatenate each prefix with the name (no separator), clean the result,
and return the first candidate whose existence check succeeds; an
existence-check error is collapsed to `false` by `unwrapOrDefault`. -/
def findScan (l : Loader) (paths : List String) (name : String) :
    Option String :=
  match paths with
  | [] => none
  | p :: rest =>
    let full_path := clean_path (p ++ name)
    if unwrapOrDefault (l.exists full_path) then some full_path
    else findScan l rest name

/-- Embeds `Loader::find_in_paths` from `src/lib.rs`: try every candidate
prefix with the exact-case name, then (when the name differs from its
ASCII-lowercase form) retry the whole candidate list with the lowercased
name. -/
def Loader.find_in_paths (l : Loader) (name : String) (paths : List String) :
    Option String :=
  match findScan l paths name with
  | some found => some found
  | none =>
    let lower_name := toAsciiLower name
    if name ≠ lower_name then findScan l paths lower_name
    else none

/-! ### Scan lemmas and the loader lookup claims -/

theorem loader_load_eq (l : Loader) (name : String) :
    Loader.load l name =
      match scanLoad l.sources (clean_path name) with
      | .error e => .error e
      | .ok (some data) => .ok (some data)
      | .ok none =>
        if clean_path name ≠ toAsciiLower (clean_path name) then
          scanLoad l.sources (toAsciiLower (clean_path name))
        else .ok none := rfl

theorem loader_exists_eq (l : Loader) (name : String) :
    Loader.exists l name =
      match scanHas l.sources (clean_path name) with
      | .error e => .error e
      | .ok true => .ok true
      | .ok false =>
        if clean_path name ≠ toAsciiLower (clean_path name) then
          scanHas l.sources (toAsciiLower (clean_path name))
        else .ok false := rfl

theorem scanLoad_append_of_miss (pre rest : List AssetSource) (n : String) :
    (∀ s ∈ pre, s.load n = .ok none) →
    scanLoad (pre ++ rest) n = scanLoad rest n := by
  induction pre with
  | nil => intro _; rfl
  | cons s pre ih =>
    intro h
    show (match s.load n with
      | Except.error e => Except.error e
      | Except.ok (some data) => Except.ok (some data)
      | Except.ok none => scanLoad (pre ++ rest) n) = scanLoad rest n
    rw [h s (List.mem_cons_self s pre)]
    exact ih (fun t ht => h t (List.mem_cons_of_mem s ht))

theorem scanHas_append_of_miss (pre rest : List AssetSource) (n : String) :
    (∀ s ∈ pre, s.has n = .ok false) →
    scanHas (pre ++ rest) n = scanHas rest n := by
  induction pre with
  | nil => intro _; rfl
  | cons s pre ih =>
    intro h
    show (match s.has n with
      | Except.error e => Except.error e
      | Except.ok true => Except.ok true
      | Except.ok false => scanHas (pre ++ rest) n) = scanHas rest n
    rw [h s (List.mem_cons_self s pre)]
    exact ih (fun t ht => h t (List.mem_cons_of_mem s ht))

theorem scanLoad_all_miss (sources : List AssetSource) (n : String)
    (h : ∀ s ∈ sources, s.load n = .ok none) :
    scanLoad sources n = .ok none := by
  have h1 := scanLoad_append_of_miss sources [] n h
  simpa using h1

theorem scanHas_all_miss (sources : List AssetSource) (n : String)
    (h : ∀ s ∈ sources, s.has n = .ok false) :
    scanHas sources n = .ok false := by
  have h1 := scanHas_append_of_miss sources [] n h
  simpa using h1

/-- A source holding exactly one path with fixed contents (used to settle
the lookup claims on concrete source lists). -/
def storedSource (p : String) (d : Bytes) : AssetSource where
  has := fun q => .ok (decide (q = p))
  load := fun q => .ok (if q = p then some d else none)

/-- A source whose probes always fail with the given error. -/
def srcFail (e : LoaderError) : AssetSource where
  has := fun _ => .error e
  load := fun _ => .error e

/-- A source holding nothing at all. -/
def srcEmpty : AssetSource where
  has := fun _ => .ok false
  load := fun _ => .ok none

/-- C1: when the sources before `s` in the loader's ordered list all miss
the cleaned path and `s` hits it with `data`, `Loader.load` returns `data`,
whatever the sources after `s` are — the conclusion does not depend on
`post`, so no source after the first hitting source influences (or is
needed by) the result of that pass.  In particular, when two sources both
hit the same cleaned path, the earlier one wins. -/
theorem c1_first_hit_wins (pre : List AssetSource) (s : AssetSource)
    (post : List AssetSource) (name : String) (data : Bytes)
    (hpre : ∀ t ∈ pre, t.load (clean_path name) = .ok none)
    (hs : s.load (clean_path name) = .ok (some data)) :
    Loader.load ⟨pre ++ s :: post⟩ name = .ok (some data) := by
  have h1 : scanLoad (pre ++ s :: post) (clean_path name) = .ok (some data) := by
    rw [scanLoad_append_of_miss pre (s :: post) (clean_path name) hpre]
    show (match s.load (clean_path name) with
      | Except.error e => Except.error e
      | Except.ok (some data) => Except.ok (some data)
      | Except.ok none => scanLoad post (clean_path name)) = Except.ok (some data)
    rw [hs]
  rw [loader_load_eq, h1]

/-- Witness for C1: two sources both store path `"a"` with different bytes;
the loader returns the first-listed source's bytes. -/
theorem c1_first_hit_wins_witness :
    (storedSource "a" [1]).load (clean_path "a") = .ok (some [1]) ∧
    Loader.load ⟨[storedSource "a" [1], storedSource "a" [2]]⟩ "a"
      = .ok (some [1]) :=
  ⟨by decide,
   c1_first_hit_wins [] (storedSource "a" [1]) [storedSource "a" [2]] "a" [1]
     (by simp) (by decide)⟩

/-- C2: when the sources before `s` all miss the cleaned path and `s`
raises an error for it, both `Loader.load` and `Loader.exists` return that
error, whatever the sources after `s` are — the error aborts the scan
before any later source (even one that would hit) is consulted, and the
lowercase fallback pass never runs. -/
theorem c2_error_aborts_scan (pre : List AssetSource) (s : AssetSource)
    (post : List AssetSource) (name : String) (e : LoaderError)
    (hpre_load : ∀ t ∈ pre, t.load (clean_path name) = .ok none)
    (hpre_has : ∀ t ∈ pre, t.has (clean_path name) = .ok false)
    (hs_load : s.load (clean_path name) = .error e)
    (hs_has : s.has (clean_path name) = .error e) :
    Loader.load ⟨pre ++ s :: post⟩ name = .error e ∧
    Loader.exists ⟨pre ++ s :: post⟩ name = .error e := by
  constructor
  · have h1 : scanLoad (pre ++ s :: post) (clean_path name) = .error e := by
      rw [scanLoad_append_of_miss pre (s :: post) (clean_path name) hpre_load]
      show (match s.load (clean_path name) with
        | Except.error e => Except.error e
        | Except.ok (some data) => Except.ok (some data)
        | Except.ok none => scanLoad post (clean_path name)) = Except.error e
      rw [hs_load]
    rw [loader_load_eq, h1]
  · have h1 : scanHas (pre ++ s :: post) (clean_path name) = .error e := by
      rw [scanHas_append_of_miss pre (s :: post) (clean_path name) hpre_has]
      show (match s.has (clean_path name) with
        | Except.error e => Except.error e
        | Except.ok true => Except.ok true
        | Except.ok false => scanHas post (clean_path name)) = Except.error e
      rw [hs_has]
    rw [loader_exists_eq, h1]

/-- Witness for C2: the first source fails with an I/O error while the
second source stores the probed path; the error is returned. -/
theorem c2_error_aborts_scan_witness :
    (srcFail (.Io "disk failure")).load (clean_path "a")
      = .error (.Io "disk failure") ∧
    Loader.load ⟨[srcFail (.Io "disk failure"), storedSource "a" [2]]⟩ "a"
      = .error (.Io "disk failure") ∧
    Loader.exists ⟨[srcFail (.Io "disk failure"), storedSource "a" [2]]⟩ "a"
      = .error (.Io "disk failure") := by
  refine ⟨by decide, ?_⟩
  have h := c2_error_aborts_scan [] (srcFail (.Io "disk failure"))
    [storedSource "a" [2]] "a" (.Io "disk failure")
    (by simp) (by simp) (by decide) (by decide)
  exact ⟨h.1, h.2⟩

/-! ### Backends, filesystem model and loader construction -/

/-- Embeds a `vpk` index entry: `entry.get()` materializes the bytes and
may fail with an I/O error (modelled as a string). -/
structure VPKEntry where
  get : Except String Bytes

/-- Embeds the parsed `vpk::VPK` structure: an immutable tree mapping
relative paths to entries. -/
structure VPK where
  tree : List (String × VPKEntry)

/-- The outcome of `std::fs::read` on one path: success, a not-found
failure, or any other I/O failure. -/
inductive ReadResult where
  | ok (data : Bytes)
  | notFound
  | err (e : String)
deriving DecidableEq

/-- The filesystem as seen by the repository: existence probes
(`Path::exists`), directory listing (`read_dir`, entries already converted
to path strings as `with_tf2_dir` does), file reads (`fs::read`) and vpk
parsing (`vpk::from_path`, `none` models a parse failure which
`with_tf2_dir` logs and skips). -/
structure Fs where
  pathExists : String → Bool
  readDir : String → Except String (List String)
  read : String → ReadResult
  parseVpk : String → Option VPK

/-- Does the path string start with the separator, i.e. is it absolute. -/
def startsWithSlash (p : String) : Bool :=
  match p.data with
  | '/' :: _ => true
  | _ => false

/-- Embeds `Path::join` for the relative paths used by the loader: a
separator is inserted, and an absolute right-hand side replaces the base. -/
def joinPath (base p : String) : String :=
  if startsWithSlash p then p else base ++ "/" ++ p

/-- Embeds `impl AssetSource for PathBuf` from `src/source.rs`: `has` is a
plain existence probe; `load` is a full read where a not-found failure maps
to the absent result and any other failure propagates as an I/O error. -/
def dirSource (fs : Fs) (base : String) : AssetSource where
  has := fun path => .ok (fs.pathExists (joinPath base path))
  load := fun path =>
    match fs.read (joinPath base path) with
    | .ok data => .ok (some data)
    | .notFound => .ok none
    | .err e => .error (.Io e)

/-- Embeds `impl AssetSource for VPK` from `src/source.rs`: `has` is a key
lookup in the parsed tree; `load` invokes the entry's own retrieval, whose
failure propagates as an I/O error, and an absent key is the absent
result. -/
def vpkSource (v : VPK) : AssetSource where
  has := fun path => .ok (v.tree.lookup path).isSome
  load := fun path =>
    match v.tree.lookup path with
    | some entry =>
      match entry.get with
      | .ok data => .ok (some data)
      | .error e => .error (.Io e)
    | none => .ok none

/-- The vpk discovery of `Loader::with_tf2_dir`: filter the listed entry
paths for the `dir.vpk` suffix, parse each, skip parse failures, and wrap
each parsed index as a source. -/
def strEndsWith (s suffix : String) : Bool := decide (suffix.data <:+ s.data)

def vpkSourcesOf (fs : Fs) (entries : List String) : List AssetSource :=
  ((entries.filter (fun p => strEndsWith p "dir.vpk")).filterMap
    fs.parseVpk).map vpkSource

/-- Embeds `Loader::with_tf2_dir` from `src/lib.rs`: derive the `tf`,
`hl2` and `tf/download` directories, list the `tf` and `hl2` directories
(an I/O failure of either listing aborts construction), build the source
list as the two directory sources, then the download directory source only
if that directory exists, then the discovered vpk sources. -/
def with_tf2_dir (fs : Fs) (tf2_dir : String) : Except LoaderError Loader :=
  let tf_dir := joinPath tf2_dir "tf"
  let hl_dir := joinPath tf2_dir "hl2"
  let download := joinPath tf_dir "download"
  match fs.readDir tf_dir with
  | .error e => .error (.Io e)
  | .ok tf_entries =>
    match fs.readDir hl_dir with
    | .error e => .error (.Io e)
    | .ok hl_entries =>
      let vpks := vpkSourcesOf fs (tf_entries ++ hl_entries)
      let sources := [dirSource fs tf_dir, dirSource fs hl_dir]
      let sources :=
        if fs.pathExists download then sources ++ [dirSource fs download]
        else sources
      .ok { sources := sources ++ vpks }

/-- The environment seen by `tf2_path`: the `TF_DIR` variable, the
directory-existence probe `Path::is_dir`, and the result of the whole
`steamlocate` query chain (`SteamDir::locate` / `find_app(440)` /
`resolve_app_dir`), collapsed to `none` when any stage fails. -/
structure Env where
  tf_dir : Option String
  is_dir : String → Bool
  steam_app_dir : Option String

/-- Embeds `tf2_path` from `src/lib.rs`: an override set to an existing
directory is used directly; an override set to anything else fails with
`Tf2NotFound` without consulting the platform client; with no override the
steam query result is used, any failure of it collapsing to
`Tf2NotFound`. -/
def tf2_path (env : Env) : Except LoaderError String :=
  match env.tf_dir with
  | some path => if env.is_dir path then .ok path else .error .Tf2NotFound
  | none =>
    match env.steam_app_dir with
    | some dir => .ok dir
    | none => .error .Tf2NotFound

/-- Embeds `Loader::new`: install-path discovery followed by
`with_tf2_dir`. -/
def Loader.new (env : Env) (fs : Fs) : Except LoaderError Loader :=
  match tf2_path env with
  | .ok tf2_dir => with_tf2_dir fs tf2_dir
  | .error e => .error e

/-- C3: `Loader.exists` and `Loader.load` run the second full source scan
with the ASCII-lowercased cleaned path exactly when the exact-case scan
found no hit (and no error) and the cleaned path differs from its
lowercase form; the fallback is the single full-lowercase transform, so a
source storing a path equal to neither the cleaned input nor its lowercase
form is not found (`exists` is `false` and `load` is `none`). -/
theorem c3_lowercase_fallback (sources : List AssetSource)
    (name stored q : String) (d : Bytes)
    (h1 : stored ≠ clean_path q)
    (h2 : stored ≠ toAsciiLower (clean_path q)) :
    (Loader.exists ⟨sources⟩ name =
      match scanHas sources (clean_path name) with
      | .error e => .error e
      | .ok true => .ok true
      | .ok false =>
        if clean_path name ≠ toAsciiLower (clean_path name) then
          scanHas sources (toAsciiLower (clean_path name))
        else .ok false) ∧
    (Loader.load ⟨sources⟩ name =
      match scanLoad sources (clean_path name) with
      | .error e => .error e
      | .ok (some data) => .ok (some data)
      | .ok none =>
        if clean_path name ≠ toAsciiLower (clean_path name) then
          scanLoad sources (toAsciiLower (clean_path name))
        else .ok none) ∧
    Loader.exists ⟨[storedSource stored d]⟩ q = .ok false ∧
    Loader.load ⟨[storedSource stored d]⟩ q = .ok none := by
  have hd1 : (storedSource stored d).has (clean_path q) = .ok false := by
    show Except.ok (decide (clean_path q = stored)) = Except.ok false
    rw [decide_eq_false (fun hh => h1 hh.symm)]
  have hd2 : (storedSource stored d).has (toAsciiLower (clean_path q))
      = .ok false := by
    show Except.ok (decide (toAsciiLower (clean_path q) = stored))
      = Except.ok false
    rw [decide_eq_false (fun hh => h2 hh.symm)]
  have hd3 : (storedSource stored d).load (clean_path q) = .ok none := by
    show Except.ok (if clean_path q = stored then some d else none)
      = Except.ok none
    rw [if_neg (fun hh => h1 hh.symm)]
  have hd4 : (storedSource stored d).load (toAsciiLower (clean_path q))
      = .ok none := by
    show Except.ok (if toAsciiLower (clean_path q) = stored then some d
      else none) = Except.ok none
    rw [if_neg (fun hh => h2 hh.symm)]
  have hs1 : scanHas [storedSource stored d] (clean_path q) = .ok false := by
    show (match (storedSource stored d).has (clean_path q) with
      | Except.error e => Except.error e
      | Except.ok true => Except.ok true
      | Except.ok false => scanHas [] (clean_path q)) = Except.ok false
    rw [hd1]
    rfl
  have hs2 : scanHas [storedSource stored d] (toAsciiLower (clean_path q))
      = .ok false := by
    show (match (storedSource stored d).has (toAsciiLower (clean_path q)) with
      | Except.error e => Except.error e
      | Except.ok true => Except.ok true
      | Except.ok false => scanHas [] (toAsciiLower (clean_path q)))
      = Except.ok false
    rw [hd2]
    rfl
  have hs3 : scanLoad [storedSource stored d] (clean_path q) = .ok none := by
    show (match (storedSource stored d).load (clean_path q) with
      | Except.error e => Except.error e
      | Except.ok (some data) => Except.ok (some data)
      | Except.ok none => scanLoad [] (clean_path q)) = Except.ok none
    rw [hd3]
    rfl
  have hs4 : scanLoad [storedSource stored d] (toAsciiLower (clean_path q))
      = .ok none := by
    show (match (storedSource stored d).load (toAsciiLower (clean_path q)) with
      | Except.error e => Except.error e
      | Except.ok (some data) => Except.ok (some data)
      | Except.ok none => scanLoad [] (toAsciiLower (clean_path q)))
      = Except.ok none
    rw [hd4]
    rfl
  refine ⟨loader_exists_eq _ _, loader_load_eq _ _, ?_, ?_⟩
  · rw [loader_exists_eq, hs1]
    show (if clean_path q ≠ toAsciiLower (clean_path q) then
      scanHas [storedSource stored d] (toAsciiLower (clean_path q))
      else Except.ok false) = Except.ok false
    rcases eq_or_ne (clean_path q) (toAsciiLower (clean_path q)) with he | hne
    · rw [if_neg (fun hn => hn he)]
    · rw [if_pos hne, hs2]
  · rw [loader_load_eq, hs3]
    show (if clean_path q ≠ toAsciiLower (clean_path q) then
      scanLoad [storedSource stored d] (toAsciiLower (clean_path q))
      else Except.ok none) = Except.ok none
    rcases eq_or_ne (clean_path q) (toAsciiLower (clean_path q)) with he | hne
    · rw [if_neg (fun hn => hn he)]
    · rw [if_pos hne, hs4]

/-- Witness for C3: the spec's own example — a source storing only
`models/Foo.MDL` (a case matching neither the query nor its lowercase
form) is not found by a lookup for `models/foo.mdl`. -/
theorem c3_lowercase_fallback_witness :
    ("models/Foo.MDL" ≠ clean_path "models/foo.mdl") ∧
    ("models/Foo.MDL" ≠ toAsciiLower (clean_path "models/foo.mdl")) ∧
    Loader.exists ⟨[storedSource "models/Foo.MDL" [5]]⟩ "models/foo.mdl"
      = .ok false ∧
    Loader.load ⟨[storedSource "models/Foo.MDL" [5]]⟩ "models/foo.mdl"
      = .ok none := by
  have h := c3_lowercase_fallback [storedSource "models/Foo.MDL" [5]]
    "models/foo.mdl" "models/Foo.MDL" "models/foo.mdl" [5]
    (by decide) (by decide)
  exact ⟨by decide, by decide, h.2.2.1, h.2.2.2⟩

theorem unwrapOrDefault_eq_false (r : Except LoaderError Bool)
    (h : r ≠ .ok true) : unwrapOrDefault r = false := by
  match r with
  | .ok true => exact absurd rfl h
  | .ok false => rfl
  | .error e => rfl

theorem findScan_append_of_miss (l : Loader) (pre rest : List String)
    (name : String) :
    (∀ q ∈ pre,
      unwrapOrDefault (Loader.exists l (clean_path (q ++ name))) = false) →
    findScan l (pre ++ rest) name = findScan l rest name := by
  induction pre with
  | nil => intro _; rfl
  | cons q pre ih =>
    intro h
    show (if unwrapOrDefault (Loader.exists l (clean_path (q ++ name)))
      then some (clean_path (q ++ name))
      else findScan l (pre ++ rest) name) = findScan l rest name
    rw [h q (List.mem_cons_self q pre)]
    exact ih (fun t ht => h t (List.mem_cons_of_mem q ht))

/-- C9: `Loader.find_in_paths` concatenates each candidate prefix with the
name without inserting a separator, cleans the result, and returns the
first cleaned candidate whose existence check succeeds; a candidate whose
existence check does not return a success-hit — including one that raises
an error, which `unwrap_or_default` collapses to `false` — is skipped and
the next candidate is tried. -/
theorem c9_find_in_paths_first_hit (l : Loader) (name : String)
    (pre : List String) (p : String) (post : List String)
    (hpre : ∀ q ∈ pre, Loader.exists l (clean_path (q ++ name)) ≠ .ok true)
    (hp : Loader.exists l (clean_path (p ++ name)) = .ok true) :
    Loader.find_in_paths l name (pre ++ p :: post)
      = some (clean_path (p ++ name)) := by
  have hscan : findScan l (pre ++ p :: post) name
      = some (clean_path (p ++ name)) := by
    rw [findScan_append_of_miss l pre (p :: post) name
      (fun q hq => unwrapOrDefault_eq_false _ (hpre q hq))]
    show (if unwrapOrDefault (Loader.exists l (clean_path (p ++ name)))
      then some (clean_path (p ++ name))
      else findScan l post name) = some (clean_path (p ++ name))
    rw [hp]
    rfl
  unfold Loader.find_in_paths
  rw [hscan]

/-- A source that raises an error when probed for `ep` and stores exactly
`sp` (used to settle C9 on a concrete loader). -/
def srcErrStored (ep sp : String) (d : Bytes) : AssetSource where
  has := fun q =>
    if q = ep then .error (.Io "probe failure") else .ok (decide (q = sp))
  load := fun q =>
    if q = ep then .error (.Io "probe failure")
    else .ok (if q = sp then some d else none)

/-- Witness for C9: the first candidate's existence check raises an I/O
error and is swallowed; the second candidate hits and its cleaned path is
returned. -/
theorem c9_find_in_paths_first_hit_witness :
    Loader.exists ⟨[srcErrStored "e/n" "s/n" [7]]⟩ (clean_path ("e/" ++ "n"))
      = .error (.Io "probe failure") ∧
    Loader.exists ⟨[srcErrStored "e/n" "s/n" [7]]⟩ (clean_path ("s/" ++ "n"))
      = .ok true ∧
    Loader.find_in_paths ⟨[srcErrStored "e/n" "s/n" [7]]⟩ "n" ["e/", "s/"]
      = some (clean_path ("s/" ++ "n")) := by
  refine ⟨by decide, by decide, ?_⟩
  exact c9_find_in_paths_first_hit ⟨[srcErrStored "e/n" "s/n" [7]]⟩ "n"
    ["e/"] "s/" [] (by decide) (by decide)

/-- C7: with every source healthy and missing the probed path (under both
the cleaned name and its lowercase form), `Loader.load` returns the
explicit absent result and `Loader.exists` returns `false`, never an
error; in the directory backend, a read failing with not-found maps to the
absent result while any other I/O failure propagates as an error. -/
theorem c7_miss_is_absent_not_error (sources : List AssetSource)
    (name : String) (fs : Fs) (base p1 p2 e : String)
    (hl1 : ∀ s ∈ sources, s.load (clean_path name) = .ok none)
    (hl2 : ∀ s ∈ sources, s.load (toAsciiLower (clean_path name)) = .ok none)
    (hh1 : ∀ s ∈ sources, s.has (clean_path name) = .ok false)
    (hh2 : ∀ s ∈ sources, s.has (toAsciiLower (clean_path name)) = .ok false)
    (hr1 : fs.read (joinPath base p1) = .notFound)
    (hr2 : fs.read (joinPath base p2) = .err e) :
    Loader.load ⟨sources⟩ name = .ok none ∧
    Loader.exists ⟨sources⟩ name = .ok false ∧
    (dirSource fs base).load p1 = .ok none ∧
    (dirSource fs base).load p2 = .error (.Io e) := by
  refine ⟨?_, ?_, ?_, ?_⟩
  · rw [loader_load_eq, scanLoad_all_miss sources _ hl1]
    show (if clean_path name ≠ toAsciiLower (clean_path name) then
      scanLoad sources (toAsciiLower (clean_path name))
      else Except.ok none) = Except.ok none
    rcases eq_or_ne (clean_path name) (toAsciiLower (clean_path name))
      with he | hne
    · rw [if_neg (fun hn => hn he)]
    · rw [if_pos hne]
      exact scanLoad_all_miss sources _ hl2
  · rw [loader_exists_eq, scanHas_all_miss sources _ hh1]
    show (if clean_path name ≠ toAsciiLower (clean_path name) then
      scanHas sources (toAsciiLower (clean_path name))
      else Except.ok false) = Except.ok false
    rcases eq_or_ne (clean_path name) (toAsciiLower (clean_path name))
      with he | hne
    · rw [if_neg (fun hn => hn he)]
    · rw [if_pos hne]
      exact scanHas_all_miss sources _ hh2
  · show (match fs.read (joinPath base p1) with
      | ReadResult.ok data => Except.ok (some data)
      | ReadResult.notFound => Except.ok none
      | ReadResult.err e2 => Except.error (LoaderError.Io e2)) = Except.ok none
    rw [hr1]
  · show (match fs.read (joinPath base p2) with
      | ReadResult.ok data => Except.ok (some data)
      | ReadResult.notFound => Except.ok none
      | ReadResult.err e2 => Except.error (LoaderError.Io e2))
      = Except.error (LoaderError.Io e)
    rw [hr2]

/-- A concrete filesystem for the C7 witness: every read is not-found
except `base/p2`, which fails with a non-not-found error. -/
def fsC7 : Fs where
  pathExists := fun _ => false
  readDir := fun _ => .ok []
  read := fun q => if q = "base/p2" then .err "denied" else .notFound
  parseVpk := fun _ => none

/-- Witness for C7: an empty-but-healthy source yields the absent result,
and the directory backend maps not-found to absent while propagating the
`denied` failure. -/
theorem c7_miss_is_absent_not_error_witness :
    fsC7.read (joinPath "base" "p1") = .notFound ∧
    fsC7.read (joinPath "base" "p2") = .err "denied" ∧
    Loader.load ⟨[srcEmpty]⟩ "a" = .ok none ∧
    Loader.exists ⟨[srcEmpty]⟩ "a" = .ok false ∧
    (dirSource fsC7 "base").load "p1" = .ok none ∧
    (dirSource fsC7 "base").load "p2" = .error (.Io "denied") := by
  have h := c7_miss_is_absent_not_error [srcEmpty] "a" fsC7 "base" "p1" "p2"
    "denied" (by decide) (by decide) (by decide) (by decide)
    (by decide) (by decide)
  exact ⟨by decide, by decide, h.1, h.2.1, h.2.2.1, h.2.2.2⟩

/-! ### Install-path discovery and construction claims -/

/-- C6: with the `TF_DIR` override set, `tf2_path` returns the override
directory exactly when it is an existing directory and otherwise fails
with the install-not-found error; the result never depends on the platform
client query (the `steam` component of the environment is arbitrary and
absent from the right-hand side), and when the override is not an existing
directory `Loader.new` fails with the same error. -/
theorem c6_tf_dir_override (p : String) (is_dir : String → Bool)
    (steam : Option String) (fs : Fs) :
    (tf2_path ⟨some p, is_dir, steam⟩ =
      if is_dir p then .ok p else .error .Tf2NotFound) ∧
    (is_dir p = false →
      Loader.new ⟨some p, is_dir, steam⟩ fs = .error .Tf2NotFound) := by
  constructor
  · rfl
  · intro h
    have h1 : tf2_path ⟨some p, is_dir, steam⟩ = .error .Tf2NotFound := by
      show (if is_dir p then Except.ok p
        else Except.error LoaderError.Tf2NotFound)
        = Except.error LoaderError.Tf2NotFound
      rw [h]
      rfl
    unfold Loader.new
    rw [h1]

/-- Witness for C6: an override naming a non-directory makes both
`tf2_path` and `Loader.new` fail with `Tf2NotFound`, despite the platform
query having an answer. -/
theorem c6_tf_dir_override_witness :
    tf2_path ⟨some "x", fun _ => false, some "steamdir"⟩
      = .error .Tf2NotFound ∧
    Loader.new ⟨some "x", fun _ => false, some "steamdir"⟩ fsC7
      = .error .Tf2NotFound := by
  have h := c6_tf_dir_override "x" (fun _ => false) (some "steamdir") fsC7
  exact ⟨h.1.trans (by decide), h.2 rfl⟩

/-- C8: when the `tf` and `hl2` directory listings succeed, construction
succeeds and the source list is exactly the `tf` and `hl2` directory
sources, then the `tf/download` directory source included as the third
entry precisely when that directory exists at construction time (silently
omitted otherwise), then the discovered vpk sources; lookups only ever
consult this fixed list, so an omitted download directory is never
rechecked. -/
theorem c8_download_third_when_exists (fs : Fs) (tf2_dir : String)
    (tf_entries hl_entries : List String)
    (h1 : fs.readDir (joinPath tf2_dir "tf") = .ok tf_entries)
    (h2 : fs.readDir (joinPath tf2_dir "hl2") = .ok hl_entries) :
    with_tf2_dir fs tf2_dir = .ok ⟨
      (if fs.pathExists (joinPath (joinPath tf2_dir "tf") "download") then
        [dirSource fs (joinPath tf2_dir "tf"),
         dirSource fs (joinPath tf2_dir "hl2"),
         dirSource fs (joinPath (joinPath tf2_dir "tf") "download")]
      else
        [dirSource fs (joinPath tf2_dir "tf"),
         dirSource fs (joinPath tf2_dir "hl2")])
      ++ vpkSourcesOf fs (tf_entries ++ hl_entries)⟩ := by
  simp only [with_tf2_dir, h1, h2]
  by_cases hd : fs.pathExists (joinPath (joinPath tf2_dir "tf") "download")
    <;> simp [hd]

/-- A filesystem where every directory exists and listings are empty (used
as the C8 witness). -/
def fsAllDirs : Fs where
  pathExists := fun _ => true
  readDir := fun _ => .ok []
  read := fun _ => .notFound
  parseVpk := fun _ => none

/-- Witness for C8: with the download directory present, it is the third
source of the constructed list. -/
theorem c8_download_third_when_exists_witness :
    fsAllDirs.readDir (joinPath "root" "tf") = .ok [] ∧
    with_tf2_dir fsAllDirs "root" = .ok ⟨[
      dirSource fsAllDirs (joinPath "root" "tf"),
      dirSource fsAllDirs (joinPath "root" "hl2"),
      dirSource fsAllDirs (joinPath (joinPath "root" "tf") "download")]⟩ := by
  refine ⟨rfl, ?_⟩
  have h := c8_download_third_when_exists fsAllDirs "root" [] [] rfl rfl
  simpa [vpkSourcesOf] using h
